import Mathlib

/-!
Shallow embedding of the order-book market maker in `src/hft_mm_bot.py`.

Python floats are modelled as exact rationals (`ℚ`); a price level
`[price, qty]` becomes a pair `ℚ × ℚ`.  Python's `list.sort()` sorts
lists lexicographically, which on price levels is the lexicographic
order on the pair; `sorted(..., reverse=True)` is the same with the
comparison flipped.  We model both with `List.insertionSort`, which
agrees with any correct sort once the comparison is fixed (ties in the
lexicographic order on pairs are literal duplicates, so stability never
matters).

The floating-point volatility pipeline (`uniform_filter1d`, `np.std`)
is kept abstract as a parameter `vol : List ℚ → ℚ` applied to the same
20-element slice `mid_prices[-20:]` the code passes to it; every
theorem about the message handler is proved for all such functions.
-/

namespace HftMM

/-- A price level `[price, quantity]` (line 31/60 of the source). -/
abbrev Level := ℚ × ℚ

/-- Lexicographic order on `[price, qty]` pairs: Python's `<=` on two-element
lists, which is what `list.sort()` sorts by (ascending). -/
def lexLe (a b : Level) : Prop :=
  a.1 < b.1 ∨ (a.1 = b.1 ∧ a.2 ≤ b.2)

/-- Flipped lexicographic order: `sorted(..., reverse=True)` (descending). -/
def lexGe (a b : Level) : Prop := lexLe b a

instance : DecidableRel lexLe := fun a b => by
  unfold lexLe; infer_instance

instance : DecidableRel lexGe := fun a b => by
  unfold lexGe lexLe; infer_instance

instance : IsTotal Level lexLe := by
  constructor
  intro a b
  rcases lt_trichotomy a.1 b.1 with h | h | h
  · exact Or.inl (Or.inl h)
  · rcases le_total a.2 b.2 with h2 | h2
    · exact Or.inl (Or.inr ⟨h, h2⟩)
    · exact Or.inr (Or.inr ⟨h.symm, h2⟩)
  · exact Or.inr (Or.inl h)

instance : IsTrans Level lexLe := by
  constructor
  intro a b c hab hbc
  rcases hab with h1 | ⟨h1, h1'⟩ <;> rcases hbc with h2 | ⟨h2, h2'⟩
  · exact Or.inl (h1.trans h2)
  · exact Or.inl (h2 ▸ h1)
  · exact Or.inl (h1 ▸ h2)
  · exact Or.inr ⟨h1.trans h2, h1'.trans h2'⟩

instance : IsAntisymm Level lexLe := by
  constructor
  intro a b hab hba
  rcases hab with h1 | ⟨h1, h1'⟩
  · rcases hba with h2 | ⟨h2, h2'⟩
    · exact absurd (h1.trans h2) (lt_irrefl _)
    · exact absurd h1 (h2 ▸ lt_irrefl _)
  · rcases hba with h2 | ⟨h2, h2'⟩
    · exact absurd h2 (h1 ▸ lt_irrefl _)
    · exact Prod.ext h1 (le_antisymm h1' h2')

instance : IsTotal Level lexGe :=
  ⟨fun a b => (IsTotal.total (r := lexLe) b a).imp id id⟩

instance : IsTrans Level lexGe :=
  ⟨fun _ _ _ hab hbc => IsTrans.trans (r := lexLe) _ _ _ hbc hab⟩

instance : IsAntisymm Level lexGe :=
  ⟨fun _ _ hab hba => IsAntisymm.antisymm (r := lexLe) _ _ hba hab⟩

/-- Embedding of `self.asks.sort()` / `sorted(...)`: ascending lexicographic sort. -/
def sortAsc (l : List Level) : List Level := List.insertionSort lexLe l

/-- Embedding of `self.bids.sort(reverse=True)` / `sorted(..., reverse=True)`. -/
def sortDesc (l : List Level) : List Level := List.insertionSort lexGe l

/-- Embedding of `[b for b in side if b[0] != price]`: drop every level at `price`. -/
def removeKey (p : ℚ) : List Level → List Level
  | [] => []
  | b :: rest => if b.1 = p then removeKey p rest else b :: removeKey p rest

/-- Embedding of `existing[1] = qty`: overwrite the quantity of the first level whose
price equals `p` (its price entry is unchanged, and equals `p`). -/
def setFirst (p q : ℚ) : List Level → List Level
  | [] => []
  | b :: rest => if b.1 = p then (p, q) :: rest else b :: setFirst p q rest

/-- Embedding of `next((b for b in side if b[0] == price), None) is not None`. -/
def hasKey (p : ℚ) : List Level → Bool
  | [] => false
  | b :: rest => b.1 = p || hasKey p rest

/-- One iteration of the change loop in `apply_changes` (lines 60–70):
quantity 0 removes the price, otherwise the first matching level is
overwritten, or the level is appended when the price is absent. -/
def applyChange (side : List Level) (c : Level) : List Level :=
  if c.2 = 0 then removeKey c.1 side
  else if hasKey c.1 side then setFirst c.1 c.2 side
  else side ++ [c]

/-- The bid half of `apply_changes`: fold the change list, then
`self.bids.sort(reverse=True)`. -/
def applyChangesBid (side : List Level) (cs : List Level) : List Level :=
  sortDesc (cs.foldl applyChange side)

/-- The ask half of `apply_changes`: fold the change list, then
`self.asks.sort()`. -/
def applyChangesAsk (side : List Level) (cs : List Level) : List Level :=
  sortAsc (cs.foldl applyChange side)

/-- A `depthUpdate` diff message: `U`/`u` are `firstSeq`/`lastSeq`,
`b`/`a` the bid/ask change lists (already parsed to rationals). -/
structure DiffMsg where
  U : ℤ
  u : ℤ
  b : List Level
  a : List Level
deriving DecidableEq

/-- A REST depth snapshot (already parsed to rationals). -/
structure SnapshotMsg where
  bids : List Level
  asks : List Level
  lastUpdateId : ℤ
deriving DecidableEq

/-- The mutable state of the `MarketMaker` class.  Python initialises
`last_update_id` to `None`; it is written by `process_snapshot` before
any read (in `run_bot` the snapshot is always processed before
`handle_messages` runs), so we carry a plain integer. -/
structure MarketMaker where
  spread : ℚ
  mid_prices : List ℚ
  bids : List Level
  asks : List Level
  last_update_id : ℤ
  first_processed : Bool
deriving DecidableEq

def INITIAL_SPREAD : ℚ := 2 / 1000

def MIN_SPREAD : ℚ := 1 / 1000

def MAX_SPREAD : ℚ := 1 / 100

/-- Embedding of `MarketMaker.__init__` (lines 18–24). -/
def initMM : MarketMaker :=
  { spread := INITIAL_SPREAD
    mid_prices := []
    bids := []
    asks := []
    last_update_id := 0
    first_processed := false }

/-- Embedding of `update_spread` (line 27): `max(MIN_SPREAD, min(MAX_SPREAD, 0.003 * volatility))`. -/
def MarketMaker.update_spread (mm : MarketMaker) (volatility : ℚ) : MarketMaker :=
  { mm with spread := max MIN_SPREAD (min MAX_SPREAD (3 / 1000 * volatility)) }

/-- Embedding of `process_snapshot` (lines 29–34). -/
def MarketMaker.process_snapshot (mm : MarketMaker) (data : SnapshotMsg) : MarketMaker :=
  { mm with
    bids := sortDesc data.bids
    asks := sortAsc data.asks
    last_update_id := data.lastUpdateId }

/-- Embedding of `apply_changes` (lines 57–85). -/
def MarketMaker.apply_changes (mm : MarketMaker) (data : DiffMsg) : MarketMaker :=
  { mm with
    bids := applyChangesBid mm.bids data.b
    asks := applyChangesAsk mm.asks data.a }

/-- The payload of the `ValueError` raised on a sequence gap (line 55):
the message interpolates the current `last_update_id` and the diff's `U`. -/
structure GapError where
  last_update_id : ℤ
  U : ℤ
deriving DecidableEq

/-- Embedding of `process_update` (lines 36–55).  The returned state is the object's
state when the call finishes, normally or by raising; the `Option` is
the raised `ValueError`, if any (the raise happens before any mutation,
so on a gap the state comes back untouched). -/
def MarketMaker.process_update (mm : MarketMaker) (data : DiffMsg) :
    MarketMaker × Option GapError :=
  if mm.first_processed then
    if data.U ≤ mm.last_update_id + 1 then
      if data.u ≥ mm.last_update_id + 1 then
        ({ mm.apply_changes data with last_update_id := data.u }, none)
      else
        (mm, none)
    else
      (mm, some ⟨mm.last_update_id, data.U⟩)
  else
    if data.U ≤ mm.last_update_id + 1 ∧ data.u ≥ mm.last_update_id + 1 then
      (({ mm with last_update_id := data.u, first_processed := true }).apply_changes data, none)
    else
      (mm, none)

/-- Fold `process_update` over a list of diffs, stopping at the first
raised gap (the exception propagates out of `handle_messages`). -/
def process_updates (mm : MarketMaker) : List DiffMsg → MarketMaker × Option GapError
  | [] => (mm, none)
  | d :: ds =>
    match mm.process_update d with
    | (mm1, none) => process_updates mm1 ds
    | (mm1, some e) => (mm1, some e)

/-- The in-order condition `U <= last_update_id + 1 <= u` holding at every
step of a run of diffs. -/
def inOrderRun (mm : MarketMaker) : List DiffMsg → Bool
  | [] => true
  | d :: ds =>
    decide (d.U ≤ mm.last_update_id + 1 ∧ mm.last_update_id + 1 ≤ d.u) &&
      inOrderRun (mm.process_update d).1 ds

/-- The quoted prices (lines 111–112):
`our_bid = mid * (1 - spread/2)`, `our_ask = mid * (1 + spread/2)`. -/
def quote (mid spread : ℚ) : ℚ × ℚ :=
  (mid * (1 - spread / 2), mid * (1 + spread / 2))

/-- The record logged at line 114: best bid/ask, our bid/ask, spread. -/
structure QuoteRec where
  best_bid : ℚ
  best_ask : ℚ
  our_bid : ℚ
  our_ask : ℚ
  spread : ℚ
deriving DecidableEq

/-- The body of `handle_messages` for one parsed `depthUpdate` message
(lines 94–119), with the floating-point volatility computation
(`uniform_filter1d` + `np.diff` + `np.std` over `mid_prices[-20:]`)
abstracted as the parameter `vol`, applied to the same slice.  Returns
the state after the message, the propagated gap error if `process_update`
raised, and the quote record logged, if any. -/
def handleDepthUpdate (vol : List ℚ → ℚ) (mm : MarketMaker) (data : DiffMsg) :
    MarketMaker × Option GapError × Option QuoteRec :=
  match mm.process_update data with
  | (mm1, some e) => (mm1, some e, none)
  | (mm1, none) =>
    if mm1.bids ≠ [] ∧ mm1.asks ≠ [] ∧ mm1.first_processed then
      let best_bid := mm1.bids.headI.1
      let best_ask := mm1.asks.headI.1
      let mid := (best_bid + best_ask) / 2
      let mm2 := { mm1 with mid_prices := mm1.mid_prices ++ [mid] }
      if mm2.mid_prices.length > 20 then
        let window := mm2.mid_prices.drop (mm2.mid_prices.length - 20)
        let mm3 := mm2.update_spread (vol window)
        (mm3, none,
          some
            { best_bid := best_bid
              best_ask := best_ask
              our_bid := (quote mid mm3.spread).1
              our_ask := (quote mid mm3.spread).2
              spread := mm3.spread })
      else
        (mm2, none, none)
    else
      (mm1, none, none)

/-- The spec's clamp: `clamp(x, lo, hi) = min(max(x, lo), hi)`. -/
def clampSpec (x lo hi : ℚ) : ℚ := min (max x lo) hi

/-- The value `(best_bid + best_ask) / 2` as read off a post-update state (line 100). -/
def midOf (mm1 : MarketMaker) : ℚ := (mm1.bids.headI.1 + mm1.asks.headI.1) / 2

/-- The slice `mid_prices[-20:]` (line 105). -/
def window20 (l : List ℚ) : List ℚ := l.drop (l.length - 20)

/-- The spread value `update_spread` stores during a quoting step: the
clamped `0.003 ·` volatility of the window of the appended series. -/
def spreadAfter (vol : List ℚ → ℚ) (mm1 : MarketMaker) : ℚ :=
  max MIN_SPREAD (min MAX_SPREAD (3 / 1000 * vol (window20 (mm1.mid_prices ++ [midOf mm1]))))

/-- No two levels of a side share a price (the data-model invariant of a
`PriceLevelSet`). -/
def nodupKeys (l : List Level) : Prop := (l.map Prod.fst).Nodup

instance (l : List Level) : Decidable (nodupKeys l) := by
  unfold nodupKeys; infer_instance

/-- The full order-book data-model invariant of one `MarketMaker` state:
unique prices per side, bids sorted descending, asks sorted ascending. -/
def bookWF (mm : MarketMaker) : Prop :=
  nodupKeys mm.bids ∧ nodupKeys mm.asks ∧
    List.Sorted lexGe mm.bids ∧ List.Sorted lexLe mm.asks

/-- A volatility function that is identically zero, used to instantiate
the abstract `vol` parameter on concrete runs. -/
def volZero : List ℚ → ℚ := fun _ => 0

/-- All change quantities of a diff are non-negative (the data-model
invariant `quantity ≥ 0` of incoming `PriceLevel`s). -/
def qtyOK (d : DiffMsg) : Prop :=
  (∀ c ∈ d.b, 0 ≤ c.2) ∧ (∀ c ∈ d.a, 0 ≤ c.2)

/-- The invariant `bookWF` together with strictly positive stored quantities. -/
def bookInv (mm : MarketMaker) : Prop :=
  bookWF mm ∧ (∀ x ∈ mm.bids, 0 < x.2) ∧ (∀ x ∈ mm.asks, 0 < x.2)

instance (mm : MarketMaker) : Decidable (bookWF mm) := by
  unfold bookWF; infer_instance

instance (d : DiffMsg) : Decidable (qtyOK d) := by
  unfold qtyOK; infer_instance

instance (mm : MarketMaker) : Decidable (bookInv mm) := by
  unfold bookInv; infer_instance

/-- A synchronized state: one bid level (100, 1), one ask level (101, 1),
cursor 1000, first diff already processed, no mid-prices yet. -/
def mmSync : MarketMaker := ⟨2 / 1000, [], [(100, 1)], [(101, 1)], 1000, true⟩

/-- A diff entirely behind the cursor of `mmSync` (stale there). -/
def dStale : DiffMsg := ⟨990, 999, [], []⟩

/-- A diff that is in order for `mmSync` and changes nothing. -/
def dIdle : DiffMsg := ⟨1001, 1001, [], []⟩

/-- A diff opening a gap over the cursor of `mmSync`. -/
def dGap : DiffMsg := ⟨1003, 1005, [], []⟩

/-- An empty snapshot at sequence 1000. -/
def snapEmpty : SnapshotMsg := ⟨[], [], 1000⟩

/-- A one-level-per-side snapshot at sequence 2000. -/
def snapTwo : SnapshotMsg := ⟨[(100, 1)], [(101, 1)], 2000⟩

/-- A diff carrying a negative bid quantity. -/
def dNegQty : DiffMsg := ⟨1001, 1001, [(100, -1)], []⟩

/-- State `mmSync` with 19 recorded mid-prices. -/
def mm19 : MarketMaker :=
  ⟨2 / 1000, List.replicate 19 100, [(100, 1)], [(101, 1)], 1000, true⟩

/-- State `mmSync` with 20 recorded mid-prices. -/
def mm20 : MarketMaker :=
  ⟨2 / 1000, List.replicate 20 100, [(100, 1)], [(101, 1)], 1000, true⟩

/-- Two in-order diffs for `mmSync`: the first inserts bid 99, the second
removes bid 100 and upserts ask 102. -/
def dsTwo : List DiffMsg :=
  [⟨1001, 1002, [(99, 1)], []⟩, ⟨1003, 1003, [(100, 0)], [(102, 5)]⟩]

/-- The quote record emitted when `mm20` processes `dIdle` under `volZero`:
mid is 201/2, the clamped spread is the minimum 1/1000. -/
def qW : QuoteRec := ⟨100, 101, 401799 / 4000, 402201 / 4000, 1 / 1000⟩

/-! ### Helper lemmas about the level-list primitives -/

theorem removeKey_sublist (p : ℚ) (l : List Level) : (removeKey p l).Sublist l := by
  induction l with
  | nil => simp [removeKey]
  | cons b rest ih =>
    simp only [removeKey]
    split
    · exact ih.cons b
    · exact ih.cons₂ b

theorem mem_removeKey {p : ℚ} {l : List Level} {x : Level} (hx : x ∈ removeKey p l) :
    x ∈ l :=
  (removeKey_sublist p l).mem hx

theorem setFirst_map_fst (p q : ℚ) (l : List Level) :
    (setFirst p q l).map Prod.fst = l.map Prod.fst := by
  induction l with
  | nil => simp [setFirst]
  | cons b rest ih =>
    simp only [setFirst]
    split
    · rename_i h
      simp [h]
    · simp [ih]

theorem mem_setFirst {p q : ℚ} {l : List Level} {x : Level} (hx : x ∈ setFirst p q l) :
    x ∈ l ∨ x = (p, q) := by
  induction l with
  | nil => simp [setFirst] at hx
  | cons b rest ih =>
    simp only [setFirst] at hx
    split at hx
    · rcases List.mem_cons.mp hx with h | h
      · exact Or.inr h
      · exact Or.inl (List.mem_cons_of_mem _ h)
    · rcases List.mem_cons.mp hx with h | h
      · exact Or.inl (h ▸ List.mem_cons_self _ _)
      · rcases ih h with h' | h'
        · exact Or.inl (List.mem_cons_of_mem _ h')
        · exact Or.inr h'

theorem hasKey_iff_mem (p : ℚ) (l : List Level) :
    hasKey p l = true ↔ p ∈ l.map Prod.fst := by
  induction l with
  | nil => simp [hasKey]
  | cons b rest ih =>
    simp only [hasKey, Bool.or_eq_true, decide_eq_true_eq, ih, List.map_cons,
      List.mem_cons]
    constructor
    · rintro (h | h)
      · exact Or.inl h.symm
      · exact Or.inr h
    · rintro (h | h)
      · exact Or.inl h.symm
      · exact Or.inr h

theorem nodupKeys_of_perm {l l' : List Level} (h : l.Perm l') (hn : nodupKeys l) :
    nodupKeys l' :=
  (h.map Prod.fst).nodup_iff.mp hn

theorem nodupKeys_applyChange {l : List Level} (c : Level) (hn : nodupKeys l) :
    nodupKeys (applyChange l c) := by
  unfold applyChange
  split
  · exact ((removeKey_sublist c.1 l).map Prod.fst).nodup hn
  · split
    · unfold nodupKeys
      rw [setFirst_map_fst]
      exact hn
    · rename_i hk
      unfold nodupKeys
      rw [List.map_append]
      simp only [List.map_cons, List.map_nil]
      rw [List.nodup_append]
      refine ⟨hn, List.nodup_singleton _, ?_⟩
      intro a ha hb
      simp only [List.mem_singleton] at hb
      subst hb
      exact hk ((hasKey_iff_mem c.1 l).mpr ha)

theorem nodupKeys_foldl_applyChange {l : List Level} (cs : List Level) (hn : nodupKeys l) :
    nodupKeys (cs.foldl applyChange l) := by
  induction cs generalizing l with
  | nil => exact hn
  | cons c cs ih => exact ih (nodupKeys_applyChange c hn)

theorem removeKey_perm {l l' : List Level} (h : l.Perm l') (p : ℚ) :
    (removeKey p l).Perm (removeKey p l') := by
  induction h with
  | nil => rfl
  | cons x h ih =>
    simp only [removeKey]
    split
    · exact ih
    · exact ih.cons x
  | swap x y l =>
    simp only [removeKey]
    by_cases hy : y.1 = p <;> by_cases hx : x.1 = p <;> simp [hy, hx]
    exact List.Perm.swap x y (removeKey p l)
  | trans h1 h2 ih1 ih2 => exact ih1.trans ih2

theorem hasKey_eq_of_perm {l l' : List Level} (h : l.Perm l') (p : ℚ) :
    hasKey p l = hasKey p l' := by
  by_cases hm : p ∈ l.map Prod.fst
  · rw [(hasKey_iff_mem p l).mpr hm,
      (hasKey_iff_mem p l').mpr ((h.map Prod.fst).mem_iff.mp hm)]
  · have h1 : ¬ hasKey p l = true := fun hc => hm ((hasKey_iff_mem p l).mp hc)
    have h2 : ¬ hasKey p l' = true := fun hc =>
      hm ((h.map Prod.fst).mem_iff.mpr ((hasKey_iff_mem p l').mp hc))
    rw [Bool.not_eq_true] at h1 h2
    rw [h1, h2]

theorem setFirst_perm {l l' : List Level} (h : l.Perm l') (p q : ℚ) :
    nodupKeys l → (setFirst p q l).Perm (setFirst p q l') := by
  induction h with
  | nil => exact fun _ => List.Perm.refl _
  | cons x h ih =>
    intro hn
    simp only [setFirst]
    split
    · exact (h.cons _)
    · refine (ih ?_).cons x
      unfold nodupKeys at hn ⊢
      simp only [List.map_cons, List.nodup_cons] at hn
      exact hn.2
  | swap x y l =>
    intro hn
    have hxy : y.1 ≠ x.1 := by
      unfold nodupKeys at hn
      simp only [List.map_cons, List.nodup_cons, List.mem_cons] at hn
      exact fun hc => hn.1 (Or.inl hc)
    simp only [setFirst]
    by_cases hy : y.1 = p <;> by_cases hx : x.1 = p
    · exact absurd (hy.trans hx.symm) hxy
    · simp [hy, hx]
      exact List.Perm.swap x (p, q) l
    · simp [hy, hx]
      exact List.Perm.swap (p, q) y l
    · simp [hy, hx]
      exact List.Perm.swap x y (setFirst p q l)
  | trans h1 h2 ih1 ih2 =>
    intro hn
    exact (ih1 hn).trans (ih2 (nodupKeys_of_perm h1 hn))

theorem applyChange_perm {l l' : List Level} (h : l.Perm l') (c : Level) (hn : nodupKeys l) :
    (applyChange l c).Perm (applyChange l' c) := by
  unfold applyChange
  split
  · exact removeKey_perm h c.1
  · rw [← hasKey_eq_of_perm h c.1]
    split
    · exact setFirst_perm h c.1 c.2 hn
    · exact h.append_right [c]

theorem foldl_applyChange_perm {l l' : List Level} (h : l.Perm l') (hn : nodupKeys l)
    (cs : List Level) : (cs.foldl applyChange l).Perm (cs.foldl applyChange l') := by
  induction cs generalizing l l' with
  | nil => exact h
  | cons c cs ih =>
    exact ih (applyChange_perm h c hn) (nodupKeys_applyChange c hn)

/-! ### Sorting lemmas, generic in the comparison -/

section GenericSort

variable {r : Level → Level → Prop} [DecidableRel r] [IsTotal Level r] [IsTrans Level r]
variable [IsAntisymm Level r]

theorem insertionSort_eq_of_sorted {l : List Level} (h : List.Sorted r l) :
    List.insertionSort r l = l :=
  List.eq_of_perm_of_sorted (List.perm_insertionSort r l) (List.sorted_insertionSort r l) h

theorem insertionSort_foldl_congr {y y' : List Level} (hp : y.Perm y') (hn : nodupKeys y)
    (cs : List Level) :
    List.insertionSort r (cs.foldl applyChange y) =
      List.insertionSort r (cs.foldl applyChange y') :=
  List.eq_of_perm_of_sorted
    (((List.perm_insertionSort r _).trans (foldl_applyChange_perm hp hn cs)).trans
      (List.perm_insertionSort r _).symm)
    (List.sorted_insertionSort r _) (List.sorted_insertionSort r _)

end GenericSort

theorem nodupKeys_applyChangesBid {side : List Level} (cs : List Level)
    (hn : nodupKeys side) : nodupKeys (applyChangesBid side cs) :=
  nodupKeys_of_perm (List.perm_insertionSort lexGe _).symm (nodupKeys_foldl_applyChange cs hn)

theorem nodupKeys_applyChangesAsk {side : List Level} (cs : List Level)
    (hn : nodupKeys side) : nodupKeys (applyChangesAsk side cs) :=
  nodupKeys_of_perm (List.perm_insertionSort lexLe _).symm (nodupKeys_foldl_applyChange cs hn)

/-! ### Characterizations of `process_update` -/

/-- When the in-order condition `U ≤ last_update_id + 1 ≤ u` holds,
`process_update` applies the changes, advances the cursor to `u`, and
ends with `first_processed = true`, in both sync states. -/
theorem process_update_accept (mm : MarketMaker) (d : DiffMsg)
    (h1 : d.U ≤ mm.last_update_id + 1) (h2 : mm.last_update_id + 1 ≤ d.u) :
    mm.process_update d =
      ({ spread := mm.spread, mid_prices := mm.mid_prices,
         bids := applyChangesBid mm.bids d.b, asks := applyChangesAsk mm.asks d.a,
         last_update_id := d.u, first_processed := true }, none) := by
  cases hf : mm.first_processed <;>
    simp [MarketMaker.process_update, MarketMaker.apply_changes, hf, h1, h2, ge_iff_le]

/-- A diff that fails the in-order condition never mutates the state:
it is either dropped or, in the synchronized gap case, raised over. -/
theorem process_update_reject (mm : MarketMaker) (d : DiffMsg)
    (h : ¬ (d.U ≤ mm.last_update_id + 1 ∧ mm.last_update_id + 1 ≤ d.u)) :
    (mm.process_update d).1 = mm := by
  cases hf : mm.first_processed <;>
    by_cases h1 : d.U ≤ mm.last_update_id + 1 <;>
      by_cases h2 : mm.last_update_id + 1 ≤ d.u <;>
        simp [MarketMaker.process_update, hf, h1, h2, ge_iff_le] <;> exact absurd ⟨h1, h2⟩ h

/-- The function `process_update` never touches `spread` or `mid_prices`. -/
theorem process_update_frame (mm : MarketMaker) (d : DiffMsg) :
    (mm.process_update d).1.spread = mm.spread ∧
      (mm.process_update d).1.mid_prices = mm.mid_prices := by
  by_cases h : d.U ≤ mm.last_update_id + 1 ∧ mm.last_update_id + 1 ≤ d.u
  · rw [process_update_accept mm d h.1 h.2]
    exact ⟨rfl, rfl⟩
  · rw [process_update_reject mm d h]
    exact ⟨rfl, rfl⟩

/-- The function `process_update` preserves the order-book data-model invariant. -/
theorem process_update_bookWF {mm : MarketMaker} (d : DiffMsg) (hw : bookWF mm) :
    bookWF (mm.process_update d).1 := by
  have hnb := hw.1
  have hna := hw.2.1
  by_cases h : d.U ≤ mm.last_update_id + 1 ∧ mm.last_update_id + 1 ≤ d.u
  · rw [process_update_accept mm d h.1 h.2]
    exact ⟨nodupKeys_applyChangesBid d.b hnb, nodupKeys_applyChangesAsk d.a hna,
      List.sorted_insertionSort lexGe _, List.sorted_insertionSort lexLe _⟩
  · rw [process_update_reject mm d h]
    exact hw

/-- Clamping by `max lo (min hi x)` (the code) agrees with the spec's
`clamp(x, lo, hi) = min(max(x, lo), hi)` for these bounds. -/
theorem max_min_eq_clampSpec (x : ℚ) :
    max (1 / 1000) (min (1 / 100) x) = clampSpec x (1 / 1000) (1 / 100) := by
  unfold clampSpec
  rcases le_total x (1 / 1000) with h | h
  · rw [min_eq_right (h.trans (by norm_num)), max_eq_left h, max_eq_right h,
      min_eq_left (by norm_num)]
  · rcases le_total x (1 / 100) with h2 | h2
    · rw [min_eq_right h2, max_eq_right h, max_eq_left h, min_eq_left h2]
    · rw [min_eq_left h2, max_eq_right (by norm_num), max_eq_left (h2.trans' (by norm_num)),
        min_eq_right h2]

/-! ### Characterization of `handleDepthUpdate` -/

/-- When `process_update` raises, the handler propagates the error and
appends nothing. -/
theorem handleDepthUpdate_gap (vol : List ℚ → ℚ) {mm mm1 : MarketMaker} {d : DiffMsg}
    {e : GapError} (hpe : mm.process_update d = (mm1, some e)) :
    handleDepthUpdate vol mm d = (mm1, some e, none) := by
  simp only [handleDepthUpdate, hpe]

/-- When the post-update state fails the `bids and asks and first_processed`
test, the handler does nothing further. -/
theorem handleDepthUpdate_skip (vol : List ℚ → ℚ) {mm mm1 : MarketMaker} {d : DiffMsg}
    (hpe : mm.process_update d = (mm1, none))
    (hc : ¬ (mm1.bids ≠ [] ∧ mm1.asks ≠ [] ∧ mm1.first_processed = true)) :
    handleDepthUpdate vol mm d = (mm1, none, none) := by
  simp only [handleDepthUpdate, hpe]
  rw [if_neg hc]

/-- When the test passes but fewer than 21 mid-prices exist after the
append, the handler records the mid-price and quotes nothing. -/
theorem handleDepthUpdate_noQuote (vol : List ℚ → ℚ) {mm mm1 : MarketMaker} {d : DiffMsg}
    (hpe : mm.process_update d = (mm1, none))
    (hc : mm1.bids ≠ [] ∧ mm1.asks ≠ [] ∧ mm1.first_processed = true)
    (hlen : mm1.mid_prices.length < 20) :
    handleDepthUpdate vol mm d =
      ({ mm1 with mid_prices := mm1.mid_prices ++ [midOf mm1] }, none, none) := by
  have hl : ¬ (mm1.mid_prices ++ [midOf mm1]).length > 20 := by
    simp only [List.length_append, List.length_cons, List.length_nil]
    omega
  simp only [handleDepthUpdate, hpe]
  rw [if_pos hc]
  simp only [midOf] at hl ⊢
  rw [if_neg hl]

/-- When the test passes and at least 21 mid-prices exist after the
append, the handler records the mid-price, stores the clamped spread and
emits a quote record. -/
theorem handleDepthUpdate_doQuote (vol : List ℚ → ℚ) {mm mm1 : MarketMaker} {d : DiffMsg}
    (hpe : mm.process_update d = (mm1, none))
    (hc : mm1.bids ≠ [] ∧ mm1.asks ≠ [] ∧ mm1.first_processed = true)
    (hlen : 20 ≤ mm1.mid_prices.length) :
    handleDepthUpdate vol mm d =
      ({ mm1 with
          mid_prices := mm1.mid_prices ++ [midOf mm1]
          spread := spreadAfter vol mm1 }, none,
        some
          { best_bid := mm1.bids.headI.1
            best_ask := mm1.asks.headI.1
            our_bid := (quote (midOf mm1) (spreadAfter vol mm1)).1
            our_ask := (quote (midOf mm1) (spreadAfter vol mm1)).2
            spread := spreadAfter vol mm1 }) := by
  have hl : (mm1.mid_prices ++ [midOf mm1]).length > 20 := by
    simp only [List.length_append, List.length_cons, List.length_nil]
    omega
  simp only [handleDepthUpdate, hpe]
  rw [if_pos hc]
  simp only [midOf] at hl ⊢
  rw [if_pos hl]
  simp only [MarketMaker.update_spread, spreadAfter, window20, midOf, List.length_append,
    List.length_cons, List.length_nil]

/-- Changing only the `spread` field commutes with `process_update`:
the sequencing logic never reads it. -/
theorem process_update_spread_set (mm : MarketMaker) (d : DiffMsg) (s : ℚ) :
    ({ mm with spread := s } : MarketMaker).process_update d =
      ({ (mm.process_update d).1 with spread := s }, (mm.process_update d).2) := by
  cases hf : mm.first_processed <;>
    by_cases h1 : d.U ≤ mm.last_update_id + 1 <;>
      by_cases h2 : d.u ≥ mm.last_update_id + 1 <;>
        simp [MarketMaker.process_update, MarketMaker.apply_changes, hf, h1, h2]

/-- Splitting a change list across two batch applications gives the same
side as one batch, starting from a side with unique prices. -/
theorem applyChangesBid_append (side cs1 cs2 : List Level) (hn : nodupKeys side) :
    applyChangesBid side (cs1 ++ cs2) = applyChangesBid (applyChangesBid side cs1) cs2 := by
  unfold applyChangesBid sortDesc
  rw [List.foldl_append]
  exact (insertionSort_foldl_congr (List.perm_insertionSort lexGe _)
    (nodupKeys_of_perm (List.perm_insertionSort lexGe _).symm
      (nodupKeys_foldl_applyChange cs1 hn)) cs2).symm

/-- Ask-side analogue of `applyChangesBid_append`. -/
theorem applyChangesAsk_append (side cs1 cs2 : List Level) (hn : nodupKeys side) :
    applyChangesAsk side (cs1 ++ cs2) = applyChangesAsk (applyChangesAsk side cs1) cs2 := by
  unfold applyChangesAsk sortAsc
  rw [List.foldl_append]
  exact (insertionSort_foldl_congr (List.perm_insertionSort lexLe _)
    (nodupKeys_of_perm (List.perm_insertionSort lexLe _).symm
      (nodupKeys_foldl_applyChange cs1 hn)) cs2).symm

/-- With a non-negative change quantity, applying one change preserves
strict positivity of all stored quantities. -/
theorem applyChange_pos {l : List Level} {c : Level} (hl : ∀ x ∈ l, 0 < x.2)
    (hc : 0 ≤ c.2) : ∀ x ∈ applyChange l c, 0 < x.2 := by
  intro x hx
  unfold applyChange at hx
  split at hx
  · exact hl x (mem_removeKey hx)
  · rename_i hc0
    split at hx
    · rcases mem_setFirst hx with h | h
      · exact hl x h
      · rw [h]
        exact lt_of_le_of_ne hc (Ne.symm hc0)
    · rcases List.mem_append.mp hx with h | h
      · exact hl x h
      · simp only [List.mem_singleton] at h
        rw [h]
        exact lt_of_le_of_ne hc (Ne.symm hc0)

theorem foldl_applyChange_pos {l cs : List Level} (hl : ∀ x ∈ l, 0 < x.2)
    (hcs : ∀ c ∈ cs, 0 ≤ c.2) : ∀ x ∈ cs.foldl applyChange l, 0 < x.2 := by
  induction cs generalizing l with
  | nil => exact hl
  | cons c cs ih =>
    exact ih (applyChange_pos hl (hcs c (List.mem_cons_self c cs)))
      (fun c' hc' => hcs c' (List.mem_cons_of_mem c hc'))

/-- The function `process_update` preserves the full invariant when the diff's change
quantities are non-negative. -/
theorem process_update_bookInv {mm : MarketMaker} {d : DiffMsg} (hi : bookInv mm)
    (hd : qtyOK d) : bookInv (mm.process_update d).1 := by
  by_cases h : d.U ≤ mm.last_update_id + 1 ∧ mm.last_update_id + 1 ≤ d.u
  · rw [process_update_accept mm d h.1 h.2]
    refine ⟨⟨nodupKeys_applyChangesBid d.b hi.1.1, nodupKeys_applyChangesAsk d.a hi.1.2.1,
      List.sorted_insertionSort lexGe _, List.sorted_insertionSort lexLe _⟩, ?_, ?_⟩
    · intro x hx
      exact foldl_applyChange_pos hi.2.1 hd.1 x ((List.perm_insertionSort lexGe _).mem_iff.mp hx)
    · intro x hx
      exact foldl_applyChange_pos hi.2.2 hd.2 x ((List.perm_insertionSort lexLe _).mem_iff.mp hx)
  · rw [process_update_reject mm d h]
    exact hi

/-- The invariant holds after any run of diffs with non-negative change
quantities, applied, dropped and raising diffs alike. -/
theorem process_updates_bookInv {mm : MarketMaker} {ds : List DiffMsg} (hi : bookInv mm)
    (hds : ∀ d ∈ ds, qtyOK d) : bookInv (process_updates mm ds).1 := by
  induction ds generalizing mm with
  | nil => exact hi
  | cons d ds ih =>
    have hi1 : bookInv (mm.process_update d).1 :=
      process_update_bookInv hi (hds d (List.mem_cons_self d ds))
    rcases hpe : mm.process_update d with ⟨mm1, oe⟩
    rw [hpe] at hi1
    simp only at hi1
    cases oe with
    | none =>
      simp only [process_updates, hpe]
      exact ih hi1 (fun d' hd' => hds d' (List.mem_cons_of_mem d hd'))
    | some e =>
      simp only [process_updates, hpe]
      exact hi1

/-- A well-formed snapshot establishes the full invariant. -/
theorem process_snapshot_bookInv (mm : MarketMaker) (snap : SnapshotMsg)
    (hnb : nodupKeys snap.bids) (hna : nodupKeys snap.asks)
    (hpb : ∀ x ∈ snap.bids, 0 < x.2) (hpa : ∀ x ∈ snap.asks, 0 < x.2) :
    bookInv (mm.process_snapshot snap) := by
  refine ⟨⟨nodupKeys_of_perm (List.perm_insertionSort lexGe _).symm hnb,
    nodupKeys_of_perm (List.perm_insertionSort lexLe _).symm hna,
    List.sorted_insertionSort lexGe _, List.sorted_insertionSort lexLe _⟩, ?_, ?_⟩
  · intro x hx
    exact hpb x ((List.perm_insertionSort lexGe _).mem_iff.mp hx)
  · intro x hx
    exact hpa x ((List.perm_insertionSort lexLe _).mem_iff.mp hx)

/-- Sorted descending with unique prices means strictly descending prices. -/
theorem pairwise_strict_desc {l : List Level} (hs : List.Sorted lexGe l)
    (hn : nodupKeys l) : List.Pairwise (fun x y : Level => y.1 < x.1) l := by
  have hn' : l.Pairwise (fun a b : Level => a.1 ≠ b.1) := by
    unfold nodupKeys at hn
    exact List.pairwise_map.mp hn
  have hs' : l.Pairwise lexGe := hs
  refine (hs'.and hn').imp ?_
  rintro a b ⟨hab, hne⟩
  rcases hab with h | ⟨h, _⟩
  · exact h
  · exact absurd h.symm hne

/-- Sorted ascending with unique prices means strictly ascending prices. -/
theorem pairwise_strict_asc {l : List Level} (hs : List.Sorted lexLe l)
    (hn : nodupKeys l) : List.Pairwise (fun x y : Level => x.1 < y.1) l := by
  have hn' : l.Pairwise (fun a b : Level => a.1 ≠ b.1) := by
    unfold nodupKeys at hn
    exact List.pairwise_map.mp hn
  have hs' : l.Pairwise lexLe := hs
  refine (hs'.and hn').imp ?_
  rintro a b ⟨hab, hne⟩
  rcases hab with h | ⟨h, _⟩
  · exact h
  · exact absurd h hne

/-! ### Claims -/

/-- C1: in the `SYNCED` state (`first_processed = true`), a diff with
`firstSeq > lastSequence + 1` makes `process_update` raise the
sequence-gap error carrying both the current `last_update_id` and the
diff's `U`, and the returned state is the unchanged `mm`: bid set, ask
set, cursor and sync state are all untouched. -/
theorem claim_C1 (mm : MarketMaker) (d : DiffMsg) (hs : mm.first_processed = true)
    (hgap : mm.last_update_id + 1 < d.U) :
    mm.process_update d = (mm, some ⟨mm.last_update_id, d.U⟩) := by
  have h1 : ¬ d.U ≤ mm.last_update_id + 1 := not_le.mpr hgap
  simp [MarketMaker.process_update, hs, h1]

/-- Witness for C1 at the synchronized state `mmSync` and gapped diff `dGap`. -/
theorem claim_C1_witness : mmSync.process_update dGap = (mmSync, some ⟨1000, 1003⟩) :=
  claim_C1 mmSync dGap rfl (by decide)

/-- C2: in the `AWAITING_FIRST_DIFF` state (`first_processed = false`), a
diff is applied — changes folded in, cursor set to `u`, state advanced to
`SYNCED` — exactly when `U ≤ last_update_id + 1 ≤ u`; any other diff is
dropped with no error and no change to any field. -/
theorem claim_C2 (mm : MarketMaker) (d : DiffMsg) (hs : mm.first_processed = false) :
    (d.U ≤ mm.last_update_id + 1 ∧ mm.last_update_id + 1 ≤ d.u →
        mm.process_update d =
          ({ spread := mm.spread, mid_prices := mm.mid_prices,
             bids := applyChangesBid mm.bids d.b, asks := applyChangesAsk mm.asks d.a,
             last_update_id := d.u, first_processed := true }, none)) ∧
      (¬ (d.U ≤ mm.last_update_id + 1 ∧ mm.last_update_id + 1 ≤ d.u) →
        mm.process_update d = (mm, none)) := by
  constructor
  · intro h
    exact process_update_accept mm d h.1 h.2
  · intro h
    simp [MarketMaker.process_update, hs, ge_iff_le, h]

/-- Witness for C2: a pre-snapshot-sequence diff is dropped in
`AWAITING_FIRST_DIFF` without mutation or error. -/
theorem claim_C2_witness :
    (initMM.process_snapshot snapTwo).process_update dStale =
      (initMM.process_snapshot snapTwo, none) :=
  (claim_C2 (initMM.process_snapshot snapTwo) dStale rfl).2 (by decide)

/-- C7 counterexample: in a synchronized state (not `UNSYNCED`),
`process_snapshot` does not fail: it returns normally, wholesale
replacing the book and the cursor (here 1000 becomes 2000) — there is no
state guard and no `InvalidStateError` anywhere in the code. -/
theorem claim_C7_cex :
    mmSync.first_processed = true ∧
      mmSync.process_snapshot snapTwo =
        ⟨2 / 1000, [], [(100, 1)], [(101, 1)], 2000, true⟩ :=
  ⟨rfl, rfl⟩

/-- C7 amended: `process_snapshot` performs no state validation: from any
state whatsoever it unconditionally replaces the bid/ask sets with the
sorted snapshot levels and sets the cursor, leaving `spread`,
`mid_prices` and `first_processed` untouched, and never raises. -/
theorem claim_C7_amended (mm : MarketMaker) (data : SnapshotMsg) :
    mm.process_snapshot data =
      { spread := mm.spread, mid_prices := mm.mid_prices, bids := sortDesc data.bids,
        asks := sortAsc data.asks, last_update_id := data.lastUpdateId,
        first_processed := mm.first_processed } := rfl

/-- C8: the spread written by `update_spread v` equals
`clamp(0.003 * v, 0.001, 0.01)`, lies in `[0.001, 0.01]` and is
monotone non-decreasing in `v`, for non-negative `v`. -/
theorem claim_C8 (mm : MarketMaker) (v w : ℚ) (hv : 0 ≤ v) (hvw : v ≤ w) :
    (mm.update_spread v).spread = clampSpec (3 / 1000 * v) (1 / 1000) (1 / 100) ∧
      (1 : ℚ) / 1000 ≤ (mm.update_spread v).spread ∧
      (mm.update_spread v).spread ≤ 1 / 100 ∧
      (mm.update_spread v).spread ≤ (mm.update_spread w).spread := by
  unfold MarketMaker.update_spread MIN_SPREAD MAX_SPREAD
  refine ⟨max_min_eq_clampSpec _, le_max_left _ _, ?_, ?_⟩
  · exact max_le (by norm_num) (min_le_left _ _)
  · exact max_le_max le_rfl (min_le_min le_rfl
      (mul_le_mul_of_nonneg_left hvw (by norm_num)))

/-- Witness for C8 at `v = 0`, `w = 1`. -/
theorem claim_C8_witness :
    (initMM.update_spread 0).spread = clampSpec (3 / 1000 * 0) (1 / 1000) (1 / 100) ∧
      (1 : ℚ) / 1000 ≤ (initMM.update_spread 0).spread ∧
      (initMM.update_spread 0).spread ≤ 1 / 100 ∧
      (initMM.update_spread 0).spread ≤ (initMM.update_spread 1).spread :=
  claim_C8 initMM 0 1 le_rfl (by norm_num)

/-- C9 counterexample: at `mid = 0` and `spread = 1 > 0` the claimed
strict chain `bid < mid < ask` fails: the quote degenerates to `(0, 0)`. -/
theorem claim_C9_cex :
    (quote 0 1).1 = 0 ∧ (quote 0 1).2 = 0 ∧ ¬ ((quote 0 1).1 < 0 ∧ (0 : ℚ) < (quote 0 1).2) := by
  norm_num [quote]

/-- C9 amended: `quote` returns exactly `(mid·(1 − spread/2), mid·(1 + spread/2))`,
so `ask − bid = mid · spread` over exact arithmetic, and `bid < mid < ask`
holds for every `spread > 0` provided `mid > 0` (the positivity of the
mid-price is needed, as the counterexample at `mid = 0` shows). -/
theorem claim_C9 (mid spread : ℚ) :
    quote mid spread = (mid * (1 - spread / 2), mid * (1 + spread / 2)) ∧
      (quote mid spread).2 - (quote mid spread).1 = mid * spread ∧
      (0 < spread → 0 < mid →
        (quote mid spread).1 < mid ∧ mid < (quote mid spread).2) := by
  refine ⟨rfl, ?_, ?_⟩
  · unfold quote
    ring
  · intro hs hm
    unfold quote
    constructor
    · nlinarith
    · nlinarith

/-- Witness for C9 at `mid = 100`, `spread = 1/100`. -/
theorem claim_C9_witness :
    (quote 100 (1 / 100)).1 < 100 ∧ (100 : ℚ) < (quote 100 (1 / 100)).2 :=
  (claim_C9 100 (1 / 100)).2.2 (by norm_num) (by norm_num)

/-- C3: starting from any order-book state satisfying the data-model
invariant (unique prices per side, each side sorted its way), a run of
diffs that are all in-order at their step leaves exactly the book
obtained by applying the concatenation of all per-diff change lists to
the initial sides in one batch — batching boundaries don't matter. -/
theorem claim_C3 (mm : MarketMaker) (ds : List DiffMsg) (hw : bookWF mm)
    (hrun : inOrderRun mm ds = true) :
    (process_updates mm ds).1.bids = applyChangesBid mm.bids ((ds.map DiffMsg.b).flatten) ∧
      (process_updates mm ds).1.asks = applyChangesAsk mm.asks ((ds.map DiffMsg.a).flatten) := by
  induction ds generalizing mm with
  | nil =>
    simp only [process_updates, List.map_nil, List.flatten_nil, applyChangesBid,
      applyChangesAsk, List.foldl_nil, sortDesc, sortAsc]
    exact ⟨(insertionSort_eq_of_sorted hw.2.2.1).symm, (insertionSort_eq_of_sorted hw.2.2.2).symm⟩
  | cons d ds ih =>
    simp only [inOrderRun, Bool.and_eq_true, decide_eq_true_eq] at hrun
    obtain ⟨⟨h1, h2⟩, hrest⟩ := hrun
    have hacc := process_update_accept mm d h1 h2
    have hw1 : bookWF (mm.process_update d).1 := process_update_bookWF d hw
    rw [hacc] at hrest hw1
    simp only at hrest hw1
    simp only [process_updates, hacc, List.map_cons, List.flatten_cons]
    have := ih _ hw1 hrest
    simp only at this
    rw [this.1, this.2]
    rw [← applyChangesBid_append mm.bids d.b _ hw.1,
      ← applyChangesAsk_append mm.asks d.a _ hw.2.1]
    exact ⟨rfl, rfl⟩

/-- Witness for C3: two in-order diffs on `mmSync` equal their one-batch
application. -/
theorem claim_C3_witness :
    (process_updates mmSync dsTwo).1.bids =
        applyChangesBid mmSync.bids ((dsTwo.map DiffMsg.b).flatten) ∧
      (process_updates mmSync dsTwo).1.asks =
        applyChangesAsk mmSync.asks ((dsTwo.map DiffMsg.a).flatten) :=
  claim_C3 mmSync dsTwo (by decide) (by decide)

/-- C4 counterexample: the code only treats quantity 0 as a removal; a
change with a negative quantity is upserted like any other, so after a
snapshot and one in-order diff carrying quantity −1 the bid set holds an
entry with quantity below 0, violating the claimed invariant for
arbitrary quantity values. -/
theorem claim_C4_cex :
    ((initMM.process_snapshot snapEmpty).process_update dNegQty).1.bids = [(100, -1)] ∧
      ((-1 : ℚ) < 0) :=
  ⟨rfl, by norm_num⟩

/-- C4 amended: provided the snapshot's sides carry pairwise-distinct
prices and strictly positive quantities and every diff change quantity
is non-negative (the data-model invariants of the incoming messages),
then after the snapshot and any sequence of diffs each side has
pairwise-distinct prices in the required strict order — bids strictly
descending, asks strictly ascending — and no entry with quantity 0 or
below. -/
theorem claim_C4 (snap : SnapshotMsg) (ds : List DiffMsg)
    (hnb : nodupKeys snap.bids) (hna : nodupKeys snap.asks)
    (hpb : ∀ x ∈ snap.bids, 0 < x.2) (hpa : ∀ x ∈ snap.asks, 0 < x.2)
    (hds : ∀ d ∈ ds, qtyOK d) :
    List.Pairwise (fun x y : Level => y.1 < x.1)
        (process_updates (initMM.process_snapshot snap) ds).1.bids ∧
      (∀ x ∈ (process_updates (initMM.process_snapshot snap) ds).1.bids, 0 < x.2) ∧
      List.Pairwise (fun x y : Level => x.1 < y.1)
        (process_updates (initMM.process_snapshot snap) ds).1.asks ∧
      (∀ x ∈ (process_updates (initMM.process_snapshot snap) ds).1.asks, 0 < x.2) := by
  have hi := process_updates_bookInv
    (process_snapshot_bookInv initMM snap hnb hna hpb hpa) hds
  exact ⟨pairwise_strict_desc hi.1.2.2.1 hi.1.1, hi.2.1,
    pairwise_strict_asc hi.1.2.2.2 hi.1.2.1, hi.2.2⟩

/-- Witness for C4: snapshot `snapTwo` followed by the two in-order diffs
`dsTwo`. -/
theorem claim_C4_witness :
    List.Pairwise (fun x y : Level => y.1 < x.1)
        (process_updates (initMM.process_snapshot snapTwo) dsTwo).1.bids ∧
      (∀ x ∈ (process_updates (initMM.process_snapshot snapTwo) dsTwo).1.bids, 0 < x.2) ∧
      List.Pairwise (fun x y : Level => x.1 < y.1)
        (process_updates (initMM.process_snapshot snapTwo) dsTwo).1.asks ∧
      (∀ x ∈ (process_updates (initMM.process_snapshot snapTwo) dsTwo).1.asks, 0 < x.2) :=
  claim_C4 snapTwo dsTwo (by decide) (by decide) (by norm_num [snapTwo])
    (by norm_num [snapTwo]) (by norm_num [dsTwo, qtyOK])

/-- C5 counterexample: in `SYNCED`, the stale diff `dStale` is dropped
with no state change and no error, yet the handler still appends a
mid-price to the (previously empty) series. -/
theorem claim_C5_cex :
    mmSync.process_update dStale = (mmSync, none) ∧
      (handleDepthUpdate volZero mmSync dStale).1.mid_prices.length = 1 :=
  ⟨rfl, rfl⟩

/-- C5 amended: exactly one mid-price is appended per processed diff that
does not raise and leaves `first_processed` set with both sides
non-empty — whether the diff was applied or dropped as stale; a raising
diff, or one leaving the test false, appends nothing. -/
theorem claim_C5_amended (vol : List ℚ → ℚ) (mm : MarketMaker) (d : DiffMsg) :
    ((mm.process_update d).2 ≠ none →
        (handleDepthUpdate vol mm d).1.mid_prices = mm.mid_prices) ∧
      ((mm.process_update d).2 = none →
        (((mm.process_update d).1.bids ≠ [] ∧ (mm.process_update d).1.asks ≠ [] ∧
              (mm.process_update d).1.first_processed = true →
            (handleDepthUpdate vol mm d).1.mid_prices =
              mm.mid_prices ++ [midOf (mm.process_update d).1]) ∧
          (¬ ((mm.process_update d).1.bids ≠ [] ∧ (mm.process_update d).1.asks ≠ [] ∧
              (mm.process_update d).1.first_processed = true) →
            (handleDepthUpdate vol mm d).1.mid_prices = mm.mid_prices))) := by
  have hframe := (process_update_frame mm d).2
  rcases hpe : mm.process_update d with ⟨mm1, oe⟩
  rw [hpe] at hframe
  simp only at hframe
  cases oe with
  | some e =>
    refine ⟨fun _ => ?_, fun hc => by simp at hc⟩
    rw [handleDepthUpdate_gap vol hpe]
    exact hframe
  | none =>
    refine ⟨fun hc => absurd rfl hc, fun _ => ⟨fun hcond => ?_, fun hcond => ?_⟩⟩
    · simp only at hcond ⊢
      rcases lt_or_le mm1.mid_prices.length 20 with hlen | hlen
      · rw [handleDepthUpdate_noQuote vol hpe hcond hlen]
        rw [hframe]
      · rw [handleDepthUpdate_doQuote vol hpe hcond hlen]
        rw [hframe]
    · simp only at hcond ⊢
      rw [handleDepthUpdate_skip vol hpe hcond]
      exact hframe

/-- Witness for C5 at the in-order diff `dIdle` on `mmSync`. -/
theorem claim_C5_witness :
    (handleDepthUpdate volZero mmSync dIdle).1.mid_prices =
      mmSync.mid_prices ++ [midOf (mmSync.process_update dIdle).1] :=
  ((claim_C5_amended volZero mmSync dIdle).2 rfl).1 (by decide)

/-- C6 counterexample: with 19 prior observations the 20-element window
is exactly full after this step's append, yet no estimate, spread update
or quote is produced — the code requires strictly more than 20. -/
theorem claim_C6_cex :
    (handleDepthUpdate volZero mm19 dIdle).2.2 = none ∧
      (handleDepthUpdate volZero mm19 dIdle).1.mid_prices.length = 20 :=
  ⟨rfl, rfl⟩

/-- C6 amended: a volatility estimate (and hence a spread update and a
quote) is produced in a step exactly when the diff is processed without
raising, the post-state passes the `bids and asks and first_processed`
test, and at least 20 mid-prices had already been observed — i.e. at
least 21 observations including the one this step appends. -/
theorem claim_C6_amended (vol : List ℚ → ℚ) (mm : MarketMaker) (d : DiffMsg) :
    (handleDepthUpdate vol mm d).2.2.isSome = true ↔
      ((mm.process_update d).2 = none ∧
        (mm.process_update d).1.bids ≠ [] ∧ (mm.process_update d).1.asks ≠ [] ∧
        (mm.process_update d).1.first_processed = true ∧
        20 ≤ mm.mid_prices.length) := by
  have hframe := (process_update_frame mm d).2
  rcases hpe : mm.process_update d with ⟨mm1, oe⟩
  rw [hpe] at hframe
  simp only at hframe
  cases oe with
  | some e =>
    rw [handleDepthUpdate_gap vol hpe]
    simp
  | none =>
    by_cases hc : mm1.bids ≠ [] ∧ mm1.asks ≠ [] ∧ mm1.first_processed = true
    · rcases lt_or_le mm1.mid_prices.length 20 with hlen | hlen
      · rw [handleDepthUpdate_noQuote vol hpe hc hlen]
        rw [hframe] at hlen
        constructor
        · intro hfx
          simp at hfx
        · intro hx
          exact absurd hx.2.2.2.2 (by omega)
      · rw [handleDepthUpdate_doQuote vol hpe hc hlen]
        rw [hframe] at hlen
        constructor
        · intro _
          exact ⟨rfl, hc.1, hc.2.1, hc.2.2, hlen⟩
        · intro _
          rfl
    · rw [handleDepthUpdate_skip vol hpe hc]
      constructor
      · intro hfx
        simp at hfx
      · intro hx
        exact (hc ⟨hx.2.1, hx.2.2.1, hx.2.2.2.1⟩).elim

/-- Witness for C6: `mm20` (20 prior observations) does produce a quote. -/
theorem claim_C6_witness :
    (handleDepthUpdate volZero mm20 dIdle).2.2.isSome = true :=
  (claim_C6_amended volZero mm20 dIdle).mpr ⟨rfl, by decide, by decide, rfl, by decide⟩

/-- C10: every emitted quote record carries the spread freshly computed
by the clamp formula from the volatility of the current 20-element
window, so it lies in `[0.001, 0.01]`; and the emitted quote is
independent of the incoming `spread` field, so the configured
`INITIAL_SPREAD = 0.002` never influences any emitted quote. -/
theorem claim_C10 (vol : List ℚ → ℚ) (mm : MarketMaker) (d : DiffMsg) :
    (∀ q, (handleDepthUpdate vol mm d).2.2 = some q →
        q.spread =
            clampSpec (3 / 1000 * vol (window20 ((handleDepthUpdate vol mm d).1.mid_prices)))
              (1 / 1000) (1 / 100) ∧
          (1 : ℚ) / 1000 ≤ q.spread ∧ q.spread ≤ 1 / 100) ∧
      ∀ s, (handleDepthUpdate vol ({ mm with spread := s }) d).2.2 =
        (handleDepthUpdate vol mm d).2.2 := by
  constructor
  · intro q hq
    rcases hpe : mm.process_update d with ⟨mm1, oe⟩
    cases oe with
    | some e =>
      rw [handleDepthUpdate_gap vol hpe] at hq
      cases hq
    | none =>
      by_cases hc : mm1.bids ≠ [] ∧ mm1.asks ≠ [] ∧ mm1.first_processed = true
      · rcases lt_or_le mm1.mid_prices.length 20 with hlen | hlen
        · rw [handleDepthUpdate_noQuote vol hpe hc hlen] at hq
          cases hq
        · rw [handleDepthUpdate_doQuote vol hpe hc hlen] at hq
          cases hq
          refine ⟨?_, le_max_left _ _,
            max_le (by norm_num [MIN_SPREAD]) (min_le_left _ _)⟩
          rw [handleDepthUpdate_doQuote vol hpe hc hlen]
          simp only [spreadAfter, MIN_SPREAD, MAX_SPREAD]
          exact max_min_eq_clampSpec _
      · rw [handleDepthUpdate_skip vol hpe hc] at hq
        cases hq
  · intro s
    have hset := process_update_spread_set mm d s
    rcases hpe : mm.process_update d with ⟨mm1, oe⟩
    rw [hpe] at hset
    simp only at hset
    cases oe with
    | some e =>
      rw [handleDepthUpdate_gap vol hpe, handleDepthUpdate_gap vol hset]
    | none =>
      by_cases hc : mm1.bids ≠ [] ∧ mm1.asks ≠ [] ∧ mm1.first_processed = true
      · rcases lt_or_le mm1.mid_prices.length 20 with hlen | hlen
        · rw [handleDepthUpdate_noQuote vol hpe hc hlen,
            handleDepthUpdate_noQuote vol hset hc hlen]
        · rw [handleDepthUpdate_doQuote vol hpe hc hlen,
            handleDepthUpdate_doQuote vol hset hc hlen]
          rfl
      · rw [handleDepthUpdate_skip vol hpe hc,
          handleDepthUpdate_skip vol hset hc]

/-- Witness for C10: the quote emitted by `mm20` on `dIdle` under
`volZero` has the clamped minimum spread, inside the bounds. -/
theorem claim_C10_witness :
    (1 : ℚ) / 1000 ≤ qW.spread ∧ qW.spread ≤ 1 / 100 := by
  have hpe : mm20.process_update dIdle =
      ({ spread := 2 / 1000, mid_prices := List.replicate 20 100, bids := [(100, 1)],
         asks := [(101, 1)], last_update_id := 1001, first_processed := true }, none) := rfl
  have hq := handleDepthUpdate_doQuote volZero hpe (by decide) (by decide)
  have hsome : (handleDepthUpdate volZero mm20 dIdle).2.2 = some qW := by
    rw [hq]
    norm_num [qW, quote, midOf, spreadAfter, volZero, MIN_SPREAD, MAX_SPREAD, min_def, max_def]
  exact ((claim_C10 volZero mm20 dIdle).1 qW hsome).2

end HftMM
